import Mathlib

/-!
Verification of the IR_Rijwol_Shakya acquisition-and-retrieval pipeline.

The Python sources are shallowly embedded:
* Python `dict` (insertion-ordered, unique keys) is modelled as an
  association list `List (α × β)` together with `dictFind` (lookup) and
  `dictSet` (update-in-place-or-append), which reproduces CPython's
  insertion-order semantics.
* Machine floats are modelled as real numbers (`ℝ`); `math.log` is `Real.log`.
* Fallible code returns `Except`.
-/

namespace IR

/-! ## Python dict model -/

/-- Model of `d.get(k)`: first binding of `k` in the association list. -/
def dictFind {α β : Type} [DecidableEq α] : List (α × β) → α → Option β
  | [], _ => none
  | p :: rest, k => if p.1 = k then some p.2 else dictFind rest k

/-- Model of `d[k] = v`: replace the value at `k` in place if present, else append. -/
def dictSet {α β : Type} [DecidableEq α] : List (α × β) → α → β → List (α × β)
  | [], k, v => [(k, v)]
  | p :: rest, k, v => if p.1 = k then (k, v) :: rest else p :: dictSet rest k v

/-- The keys of an association list, in order. -/
def keysOf {α β : Type} (l : List (α × β)) : List α := l.map Prod.fst

/-- Repeated keyed insertion: `for x in xs: m[key x] = val x`.  Both crawler
merge folds, the listing dedup fold and the token-count fold are instances. -/
def dictInsertAll {γ α β : Type} [DecidableEq α] (key : γ → α) (val : γ → β)
    (xs : List γ) (acc : List (α × β)) : List (α × β) :=
  xs.foldl (fun m x => dictSet m (key x) (val x)) acc

/-- First-occurrence order of a list of keys (the key order of a Python dict
built by repeated insertion). -/
def firstOcc {α : Type} [DecidableEq α] (ls : List α) : List α :=
  ls.foldl (fun acc l => if l ∈ acc then acc else acc ++ [l]) []


/-! ## Crawler: resilient fetch (`crawler.py`, `safe_get`)

`safe_get` runs `for attempt in range(RETRIES + 1)`.  Each attempt first
checks robots (`if not _robots_allow(url): raise Exception("Blocked by
robots.txt rules")`), then performs the render and sanity checks; *any*
exception of the attempt is caught by the same handler, which backs off and
retries while `attempt < RETRIES`, and after the loop the last exception is
re-raised.  The outcome of one attempt (after the robots gate) is abstracted
as a function of the attempt number. -/

/-- Aggregate outcome of a `safe_get` call: how many attempts were made, how
many backoff sleeps were performed, and the final result. -/
structure FetchOutcome where
  attempts : Nat
  backoffs : Nat
  result : Except String Unit
deriving Repr

/-- One attempt of `safe_get`: the robots gate, then the rendered fetch
(`fetchResult i` abstracts the render + challenge + sanity checks of
attempt `i`). -/
def attemptOnce (robotsAllow : Bool) (fetchResult : Nat → Except String Unit)
    (i : Nat) : Except String Unit :=
  if robotsAllow then fetchResult i else Except.error "Blocked by robots.txt rules"

/-- The retry loop of `safe_get` from attempt `i` on (attempt indices run from
`0` to `retries`); on failure with `i < retries` a backoff sleep happens and
the next attempt runs, otherwise the last error is re-raised. -/
def safeGetFrom (att : Nat → Except String Unit) (retries : Nat) (i : Nat) :
    FetchOutcome :=
  match att i with
  | Except.ok _ => ⟨1, 0, Except.ok ()⟩
  | Except.error e =>
    if h : i < retries then
      let r := safeGetFrom att retries (i + 1)
      ⟨r.attempts + 1, r.backoffs + 1, r.result⟩
    else ⟨1, 0, Except.error e⟩
termination_by retries - i

/-- Model of `safe_get(driver, url, label)`: run the attempt loop from attempt `0`. -/
def safeGet (att : Nat → Except String Unit) (retries : Nat) : FetchOutcome :=
  safeGetFrom att retries 0

/-- Model of `RETRIES = int(os.getenv("CRAWLER_RETRIES", "3"))`: default retry count. -/
def RETRIES_DEFAULT : Nat := 3

/-! ## Crawler: listing rows, detail records and merge -/

/-- An `{name, profile}` author object. -/
structure Author where
  name : String
  profile : Option String
deriving Repr, DecidableEq

/-- A Stage-1 listing row / stub: `{"title": ..., "link": ...}`. -/
structure ListingRow where
  title : String
  link : String
deriving Repr, DecidableEq

/-- A Stage-2 detail record as produced by `extract_detail_for_link` /
`worker_detail_batch` (`published_date` may be `None`). -/
structure DetailRec where
  title : String
  link : String
  authors : List Author
  published_date : Option String
  abstract : String
deriving Repr, DecidableEq

/-- The final dedup step of `gather_all_listing_links`:
`uniq = {}; for r in all_rows: uniq[r["link"]] = r; return list(uniq.values())`.
Keyed by link; assignment replaces the stored row in place. -/
def gatherDedup (rows : List ListingRow) : List ListingRow :=
  (rows.foldl (fun uniq r => dictSet uniq r.link r) []).map Prod.snd

/-- The minimal record emitted by `worker_detail_batch` when
`extract_detail_for_link` raises: title/link from the stub, no authors,
`published_date = None`, empty abstract. -/
def minimalRecord (it : ListingRow) : DetailRec :=
  ⟨it.title, it.link, [], none, ""⟩

/-- Model of `worker_detail_batch(batch, ...)`: per item, try
`extract_detail_for_link` and append its record; on any exception append
`minimalRecord` and continue with the next item.  The extraction itself is
abstracted as `extract`. -/
def workerDetailBatch (extract : ListingRow → Except String DetailRec)
    (batch : List ListingRow) : List DetailRec :=
  batch.foldl
    (fun out it =>
      out ++ [match extract it with
              | Except.ok rec => rec
              | Except.error _ => minimalRecord it])
    []

/-- A value stored in the merge map of `main`: either the re-packed listing
stub `{"title": it["title"], "link": it["link"]}` or a Stage-2 record. -/
def MergedVal : Type := ListingRow ⊕ DetailRec

/-- The link a merged value is keyed by. -/
def MergedVal.link : MergedVal → String
  | Sum.inl row => row.link
  | Sum.inr rec => rec.link

/-- The `by_link` map of the merge step of `main`: insert every listing stub
(re-packed as `{"title": it["title"], "link": it["link"]}`), then overwrite
with every detail record, keyed by `link`. -/
def mergeMap (listing : List ListingRow) (details : List DetailRec) :
    List (String × MergedVal) :=
  details.foldl (fun m rec => dictSet m rec.link (Sum.inr rec))
    (listing.foldl (fun m it => dictSet m it.link (Sum.inl ⟨it.title, it.link⟩)) [])

/-- Model of `final_rows = list(by_link.values())`. -/
def mergeByLink (listing : List ListingRow) (details : List DetailRec) :
    List MergedVal :=
  (mergeMap listing details).map Prod.snd

/-! ## Backend: query cache (`main.py`, `_cache_set`) -/

/-- A query-cache entry `{"ts": ..., "value": ...}` (timestamps as naturals,
values abstract). -/
structure CacheEntry (V : Type) where
  ts : Nat
  value : V
deriving Repr, DecidableEq

/-- Model of `min(cache.items(), key=lambda item: item[1]["ts"])`: the first entry
with minimal timestamp, in iteration order (CPython `min` keeps the earlier
item on ties).  `none` only on an empty dict, where Python raises. -/
def minByTs {V : Type} (c : List (String × CacheEntry V)) :
    Option (String × CacheEntry V) :=
  c.foldl
    (fun acc p =>
      match acc with
      | none => some p
      | some q => if p.2.ts < q.2.ts then some p else some q)
    none

/-- Model of `cache.pop(k, None)`: remove the binding of `k`. -/
def dictPop {V : Type} (c : List (String × CacheEntry V)) (k : String) :
    List (String × CacheEntry V) :=
  c.filter (fun p => !(p.1 == k))

/-- Model of `_cache_set(key, value)` with capacity `maxEntries` (`SEARCH_CACHE_MAX`)
at time `now`: if the cache is at or beyond capacity, evict the
oldest-timestamped entry, then insert `{"ts": now, "value": v}`.
(When the cache is empty and `maxEntries = 0`, Python's `min` would raise;
the theorems assume `0 < maxEntries` as in the shipped default `128`.) -/
def cacheSet {V : Type} (maxEntries : Nat) (c : List (String × CacheEntry V))
    (k : String) (now : Nat) (v : V) : List (String × CacheEntry V) :=
  let c' :=
    if maxEntries ≤ c.length then
      match minByTs c with
      | some oldest => dictPop c oldest.1
      | none => c
    else c
  dictSet c' k ⟨now, v⟩

/-! ## Backend: indexer (`indexer.py`, `build_inverted_index`)

The tokenization pipeline (`preprocess_text`: lowercase, strip punctuation,
NLTK tokenize, stopword removal, length filter, Porter stemming) is an
external-library pipeline; documents enter the embedding as their already
preprocessed token lists, exactly the `tokens` variable of the source. -/

/-- One value of the inverted index: `{"df": ..., "postings": {...}}` with
postings keyed by document position (`str(doc_id)` in the JSON artifact,
modelled as the position itself since `str`/`int` round-trip). -/
structure IndexEntry where
  df : Nat
  postings : List (Nat × Nat)
deriving Repr, DecidableEq

/-- Model of `collections.Counter(tokens)`: per-token counts, keys in first-occurrence
order. -/
def countTokens (tokens : List String) : List (String × Nat) :=
  tokens.foldl
    (fun acc t =>
      match dictFind acc t with
      | some c => dictSet acc t (c + 1)
      | none => dictSet acc t 1)
    []

/-- The inner loop of `build_inverted_index` for one document: for each
`(term, tf)` of its counts, fetch-or-create the entry and set
`entry["postings"][str(doc_id)] = tf`. -/
def addDoc (index : List (String × IndexEntry)) (docId : Nat)
    (counts : List (String × Nat)) : List (String × IndexEntry) :=
  counts.foldl
    (fun idx tc =>
      let entry := (dictFind idx tc.1).getD ⟨0, []⟩
      dictSet idx tc.1 ⟨entry.df, dictSet entry.postings docId tc.2⟩)
    index

/-- One iteration of the document loop of `build_inverted_index`: the state
is `(index, doc_len, doc_id)`; append `max(1, len(tokens))` to `doc_len` and
fold the document's counts into the index. -/
def buildStep (st : List (String × IndexEntry) × List Nat × Nat)
    (tokens : List String) : List (String × IndexEntry) × List Nat × Nat :=
  (addDoc st.1 st.2.2 (countTokens tokens),
   st.2.1 ++ [max 1 tokens.length],
   st.2.2 + 1)

/-- Model of `build_inverted_index` on preprocessed documents: accumulate
`doc_len.append(max(1, len(tokens)))` and the postings per document, then
recompute `entry["df"] = len(entry["postings"])` once at the end.
Returns `(doc_len, index)`. -/
def buildInvertedIndex (docs : List (List String)) :
    List Nat × List (String × IndexEntry) :=
  let st := docs.foldl buildStep ([], [], 0)
  (st.2.1, st.1.map (fun p => (p.1, ⟨p.2.postings.length, p.2.postings⟩)))

/-! ## Backend: search engine (`search.py`, `SearchEngine.search`, index mode)

Floats are modelled as reals; `math.log` is `Real.log`.  The `scores` dict is
an association list over document ids. -/

/-- A normalized publication record, as stored in `index_data["docs"]`. -/
structure Pub where
  title : String
  link : String
  authors : List Author
  published_date : String
  abstract : String
deriving Repr, DecidableEq

instance : Inhabited Pub := ⟨⟨"", "", [], "", ""⟩⟩

/-- A formatted search result: the record's return fields plus its score. -/
structure SearchResult where
  toPub : Pub
  score : ℝ

/-- Model of `idf = math.log((n_docs + 1) / (df + 1)) + 1.0`. -/
noncomputable def idfOf (nDocs df : Nat) : ℝ :=
  Real.log (((nDocs : ℝ) + 1) / ((df : ℝ) + 1)) + 1

/-- The posting loop of `search` for one term:
`length = doc_len[doc_id] if doc_id < len(doc_len) else 1` and
`scores[doc_id] = scores.get(doc_id, 0.0) + (tf / max(1, length)) * idf`. -/
noncomputable def addPostings (docLen : List Nat) (idfV : ℝ)
    (scores : List (Nat × ℝ)) (postings : List (Nat × Nat)) : List (Nat × ℝ) :=
  postings.foldl
    (fun sc p =>
      let length := docLen.getD p.1 1
      dictSet sc p.1
        (((dictFind sc p.1).getD 0) + ((p.2 : ℝ) / (max 1 (length : ℝ))) * idfV))
    scores

/-- One iteration of the term loop of `search`: skip a token absent from the
index (`if not entry: continue`), else accumulate its postings with the
term's idf. -/
noncomputable def scoreStep (index : List (String × IndexEntry))
    (docLen : List Nat) (nDocs : Nat) (scores : List (Nat × ℝ)) (term : String) :
    List (Nat × ℝ) :=
  match dictFind index term with
  | none => scores
  | some entry => addPostings docLen (idfOf nDocs entry.df) scores entry.postings

/-- The `scores` dict built by `search` in index mode. -/
noncomputable def searchScores (index : List (String × IndexEntry))
    (docLen : List Nat) (nDocs : Nat) (tokens : List String) : List (Nat × ℝ) :=
  tokens.foldl (scoreStep index docLen nDocs) []

/-- Model of `ranked = sorted(scores.items(), key=lambda x: x[1], reverse=True)`:
stable descending sort by score. -/
noncomputable def searchRanked (index : List (String × IndexEntry))
    (docLen : List Nat) (nDocs : Nat) (tokens : List String) : List (Nat × ℝ) :=
  (searchScores index docLen nDocs tokens).mergeSort
    (fun a b => decide (b.2 ≤ a.2))

/-- The result loop of `search`: walk the ranked list and skip every entry
with `score < 0.01` (the relevance floor). -/
noncomputable def searchFiltered (index : List (String × IndexEntry))
    (docLen : List Nat) (nDocs : Nat) (tokens : List String) : List (Nat × ℝ) :=
  (searchRanked index docLen nDocs tokens).filter
    (fun p => !(decide (p.2 < 0.01)))

/-- Model of `round(score, 2)`.  (CPython rounds half to even; `round` here rounds
half away from zero — the two differ only on exact multiples of `0.005`,
which the claims never touch.) -/
noncomputable def round2 (x : ℝ) : ℝ := (round (x * 100) : ℤ) / 100

/-- Model of `SearchEngine.search` in index mode on a tokenized query: rank, apply the
relevance floor, and format each surviving `(doc_id, score)` from
`publications[doc_id]` with the rounded score. -/
noncomputable def searchIndexMode (pubs : List Pub)
    (index : List (String × IndexEntry)) (docLen : List Nat)
    (tokens : List String) : List SearchResult :=
  (searchFiltered index docLen pubs.length tokens).map
    (fun p => ⟨pubs.getD p.1 default, round2 p.2⟩)

/-- Python's `not s.strip()`: the string is empty or whitespace-only. -/
def pyStripEmpty (s : String) : Bool := s.data.all (fun c => c.isWhitespace)

/-- Model of `SearchEngine.search(query)` in index mode: `if not query.strip():
return []`, else tokenize with the indexing pipeline (`tokenize` abstracts
`preprocess_text(query).split()`) and run the scorer. -/
noncomputable def engineSearch (pubs : List Pub)
    (index : List (String × IndexEntry)) (docLen : List Nat)
    (tokenize : String → List String) (query : String) : List SearchResult :=
  if pyStripEmpty query then []
  else searchIndexMode pubs index docLen (tokenize query)

/-- The per-term score contribution the spec describes: `0` if the term is
absent from the index or the document is absent from its postings, else
`(tf / doc_len) * idf` with the engine's out-of-range/zero guards. -/
noncomputable def termContrib (index : List (String × IndexEntry))
    (docLen : List Nat) (nDocs : Nat) (d : Nat) (t : String) : ℝ :=
  match dictFind index t with
  | none => 0
  | some entry =>
    match dictFind entry.postings d with
    | none => 0
    | some tf => ((tf : ℝ) / (max 1 ((docLen.getD d 1 : Nat) : ℝ))) * idfOf nDocs entry.df

/-- As `termContrib`, but summing over every posting entry whose key is `d`
(the two agree when the postings keys are duplicate-free, as in any actual
JSON postings map). -/
noncomputable def termContribSum (index : List (String × IndexEntry))
    (docLen : List Nat) (nDocs : Nat) (d : Nat) (t : String) : ℝ :=
  match dictFind index t with
  | none => 0
  | some entry =>
    ((entry.postings.filter (fun p => decide (p.1 = d))).map
      (fun p => ((p.2 : ℝ) / max 1 ((docLen.getD p.1 1 : Nat) : ℝ)) * idfOf nDocs entry.df)).sum

/-- The modification C9 speaks about: replace the raw term frequency of
document `d` under term `t` (everything else — `doc_len`, `df`, the number
of documents, all other postings — unchanged). -/
def setTf (index : List (String × IndexEntry)) (t : String) (d tf : Nat) :
    List (String × IndexEntry) :=
  match dictFind index t with
  | none => index
  | some e => dictSet index t ⟨e.df, dictSet e.postings d tf⟩

/-! ## Backend: search endpoint (`main.py`, `search_publications`) -/

/-- Model of `re.search(r"(19|20)\d{2}", s)` on a character list: the leftmost
position where `19` or `20` is followed by two digits, yielding the
four-digit number. -/
def findYear : List Char → Option Nat
  | c1 :: c2 :: c3 :: c4 :: rest =>
    if (((c1 = '1' ∧ c2 = '9') ∨ (c1 = '2' ∧ c2 = '0')) ∧ c3.isDigit ∧ c4.isDigit) then
      some ((c1.toNat - '0'.toNat) * 1000 + (c2.toNat - '0'.toNat) * 100 +
            (c3.toNat - '0'.toNat) * 10 + (c4.toNat - '0'.toNat))
    else findYear (c2 :: c3 :: c4 :: rest)
  | _ => none

/-- Model of `_extract_year(date_str)`: the matched year, else `0`. -/
def extractYear (s : String) : Nat := (findYear s.data).getD 0

/-- Python's `needle in hay` on strings: contiguous-substring test. -/
def substrOf (needle hay : String) : Bool :=
  decide (needle.data <:+: hay.data)

/-- Model of `_matches_author(item, author_query)`: empty query matches everything,
else the trimmed lowercase query must be a substring of some author name,
lowercased. -/
def matchesAuthor (authors : List Author) (authorQuery : String) : Bool :=
  if authorQuery = "" then true
  else authors.any (fun a => substrOf authorQuery.trim.toLower a.name.toLower)

/-- Model of `_matches_year(item, year_from, year_to)`: trivial when both bounds are
falsy (`0`); otherwise the extracted year must respect each truthy (nonzero)
bound and be nonzero itself. -/
def matchesYear (dateStr : String) (yearFrom yearTo : Int) : Bool :=
  if yearFrom = 0 ∧ yearTo = 0 then true
  else
    let year : Int := (extractYear dateStr : Int)
    if yearFrom ≠ 0 ∧ year < yearFrom then false
    else if yearTo ≠ 0 ∧ year > yearTo then false
    else decide (year ≠ 0)

/-- Normalize one bound of a Python slice `l[a:b]` (step 1): negative indices
count from the end, then both are clamped to `[0, len]`. -/
def pyIdx (len : Nat) (i : Int) : Nat :=
  if i < 0 then (max 0 (i + (len : Int))).toNat else min i.toNat len

/-- Python `l[a:b]` for integer bounds. -/
def pySlice {α : Type} (l : List α) (a b : Int) : List α :=
  (l.take (pyIdx l.length b)).drop (pyIdx l.length a)

/-- The cache key of `search_publications`:
`"|".join([query.strip().lower(), author.strip().lower(), str(year_from or ""), str(year_to or ""), sort.strip().lower()])`. -/
def cacheKey (query author : String) (yearFrom yearTo : Int) (sort : String) :
    String :=
  query.trim.toLower ++ "|" ++ author.trim.toLower ++ "|" ++
    (if yearFrom = 0 then "" else toString yearFrom) ++ "|" ++
    (if yearTo = 0 then "" else toString yearTo) ++ "|" ++ sort.trim.toLower

/-- The JSON payload a successful `/search` call returns. -/
structure SearchPayload where
  results : List SearchResult
  total : Nat
  page : Int
  size : Int
  total_pages : Int

/-- Filtering, sorting and pagination of `search_publications`, applied to
the already chosen raw result list.  The only statement in the handler that
can raise on well-typed arguments is the `total_pages` floor division, which
raises `ZeroDivisionError` when `size == 0`; the surrounding
`except Exception` turns that into an error payload. -/
noncomputable def endpointPostProcess (results0 : List SearchResult)
    (page size : Int) (author : String) (yearFrom yearTo : Int) (sort : String) :
    Except String SearchPayload :=
  let results1 :=
    if pyStripEmpty author then results0
    else results0.filter (fun r => matchesAuthor r.toPub.authors author)
  let results2 :=
    if yearFrom ≠ 0 ∨ yearTo ≠ 0 then
      results1.filter (fun r => matchesYear r.toPub.published_date yearFrom yearTo)
    else results1
  let sorted :=
    if sort = "date" then
      results2.mergeSort (fun a b =>
        decide (extractYear b.toPub.published_date ≤ extractYear a.toPub.published_date))
    else if sort = "title" then
      results2.mergeSort (fun a b =>
        decide (a.toPub.title.toLower ≤ b.toPub.title.toLower))
    else
      results2.mergeSort (fun a b => decide (b.score ≤ a.score))
  let startIdx := (page - 1) * size
  let endIdx := startIdx + size
  let paginated := pySlice sorted startIdx endIdx
  if size = 0 then Except.error "integer division or modulo by zero"
  else
    Except.ok
      ⟨paginated, sorted.length, page, size,
       Int.fdiv ((sorted.length : Int) + size - 1) size⟩

/-- Model of `search_publications`: on a blank query, list the whole corpus with
score `0.0` (the per-record `authors` coercion branch is unreachable for
well-typed records); otherwise consult the query cache and fall back to
`search_engine.search(query)`.  Then filter, sort and paginate. -/
noncomputable def searchEndpoint (pubs : List Pub)
    (engine : String → List SearchResult)
    (cacheLookup : String → Option (List SearchResult))
    (query : String) (page size : Int) (author : String)
    (yearFrom yearTo : Int) (sort : String) : Except String SearchPayload :=
  let results0 :=
    if pyStripEmpty query then pubs.map (fun p => ⟨p, 0.0⟩)
    else
      match cacheLookup (cacheKey query author yearFrom yearTo sort) with
      | some v => v
      | none => engine query
  endpointPostProcess results0 page size author yearFrom yearTo sort

/-! ## Lemmas about the dict model -/

theorem keysOf_nil {α β : Type} : keysOf ([] : List (α × β)) = [] := rfl

theorem keysOf_cons {α β : Type} (p : α × β) (l : List (α × β)) :
    keysOf (p :: l) = p.1 :: keysOf l := rfl

theorem dictFind_dictSet_self {α β : Type} [DecidableEq α]
    (l : List (α × β)) (k : α) (v : β) :
    dictFind (dictSet l k v) k = some v := by
  induction l with
  | nil => simp [dictSet, dictFind]
  | cons p rest ih =>
    by_cases h : p.1 = k
    · simp [dictSet, h, dictFind]
    · simp [dictSet, h, dictFind, ih]

theorem dictFind_dictSet_ne {α β : Type} [DecidableEq α]
    (l : List (α × β)) (k k' : α) (v : β) (h : k' ≠ k) :
    dictFind (dictSet l k v) k' = dictFind l k' := by
  induction l with
  | nil =>
    simp only [dictSet, dictFind]
    rw [if_neg (Ne.symm h)]
  | cons p rest ih =>
    simp only [dictSet]
    by_cases hp : p.1 = k
    · rw [if_pos hp]
      simp only [dictFind]
      rw [if_neg (Ne.symm h), if_neg (fun hh => (Ne.symm h) (hp.symm.trans hh))]
    · rw [if_neg hp]
      simp only [dictFind]
      by_cases hp' : p.1 = k'
      · rw [if_pos hp', if_pos hp']
      · rw [if_neg hp', if_neg hp', ih]

theorem keysOf_dictSet {α β : Type} [DecidableEq α]
    (l : List (α × β)) (k : α) (v : β) :
    keysOf (dictSet l k v) = if k ∈ keysOf l then keysOf l else keysOf l ++ [k] := by
  induction l with
  | nil => simp [dictSet, keysOf]
  | cons p rest ih =>
    by_cases h : p.1 = k
    · have hk : k ∈ keysOf (p :: rest) := by
        rw [keysOf_cons, ← h]
        exact List.mem_cons_self _ _
      rw [dictSet.eq_def]
      simp only [if_pos h, if_pos hk, keysOf_cons]
      rw [h, if_pos (List.mem_cons_self _ _)]
    · have hne : ¬ k = p.1 := fun hh => h hh.symm
      simp only [dictSet, if_neg h, keysOf_cons, ih, List.mem_cons, hne, false_or]
      by_cases hm : k ∈ keysOf rest
      · rw [if_pos hm, if_pos hm]
      · rw [if_neg hm, if_neg hm, List.cons_append]

theorem mem_keysOf_dictSet {α β : Type} [DecidableEq α]
    (l : List (α × β)) (k k' : α) (v : β) :
    k' ∈ keysOf (dictSet l k v) ↔ k' ∈ keysOf l ∨ k' = k := by
  rw [keysOf_dictSet]
  by_cases hm : k ∈ keysOf l
  · simp only [if_pos hm]
    constructor
    · exact Or.inl
    · rintro (h | rfl)
      · exact h
      · exact hm
  · simp [if_neg hm, List.mem_append]

theorem nodup_keysOf_dictSet {α β : Type} [DecidableEq α]
    (l : List (α × β)) (k : α) (v : β) (h : (keysOf l).Nodup) :
    (keysOf (dictSet l k v)).Nodup := by
  rw [keysOf_dictSet]
  by_cases hm : k ∈ keysOf l
  · simpa [if_pos hm] using h
  · rw [if_neg hm]
    exact List.Nodup.append h (List.nodup_singleton k) (by simpa using hm)

theorem length_dictSet {α β : Type} [DecidableEq α]
    (l : List (α × β)) (k : α) (v : β) :
    (dictSet l k v).length = if k ∈ keysOf l then l.length else l.length + 1 := by
  have := keysOf_dictSet l k v
  have hl : ∀ (m : List (α × β)), (keysOf m).length = m.length := by
    intro m; simp [keysOf]
  by_cases hm : k ∈ keysOf l
  · rw [if_pos hm]
    have := congrArg List.length this
    simpa [hl, if_pos hm] using this
  · rw [if_neg hm]
    have := congrArg List.length this
    simpa [hl, if_neg hm] using this

theorem dictFind_eq_none_iff {α β : Type} [DecidableEq α]
    (l : List (α × β)) (k : α) :
    dictFind l k = none ↔ k ∉ keysOf l := by
  induction l with
  | nil => simp [dictFind, keysOf]
  | cons p rest ih =>
    simp only [dictFind, keysOf_cons, List.mem_cons]
    by_cases h : p.1 = k
    · simp [h]
    · rw [if_neg h, ih]
      constructor
      · intro hk
        rintro (rfl | hm)
        · exact h rfl
        · exact hk hm
      · intro hk hm
        exact hk (Or.inr hm)

theorem forall_mem_dictSet {α β : Type} [DecidableEq α]
    (l : List (α × β)) (k : α) (v : β) (P : α × β → Prop)
    (hl : ∀ p ∈ l, P p) (hv : P (k, v)) :
    ∀ p ∈ dictSet l k v, P p := by
  induction l with
  | nil => simpa [dictSet] using hv
  | cons q rest ih =>
    intro p hp
    simp only [dictSet] at hp
    by_cases h : q.1 = k
    · rw [if_pos h] at hp
      rcases List.mem_cons.mp hp with hp | hp
      · exact hp ▸ hv
      · exact hl p (List.mem_cons_of_mem _ hp)
    · rw [if_neg h] at hp
      rcases List.mem_cons.mp hp with hp | hp
      · exact hl p (hp ▸ List.mem_cons_self _ _)
      · exact ih (fun r hr => hl r (List.mem_cons_of_mem _ hr)) p hp
/-! ## Lemmas about repeated keyed insertion -/

theorem mem_keysOf_dictInsertAll {γ α β : Type} [DecidableEq α]
    (key : γ → α) (val : γ → β) (xs : List γ) (acc : List (α × β)) (k : α) :
    k ∈ keysOf (dictInsertAll key val xs acc) ↔
      k ∈ keysOf acc ∨ k ∈ xs.map key := by
  induction xs generalizing acc with
  | nil => simp [dictInsertAll]
  | cons x rest ih =>
    simp only [dictInsertAll, List.foldl_cons, List.map_cons, List.mem_cons]
    rw [show (List.foldl (fun m y => dictSet m (key y) (val y)) (dictSet acc (key x) (val x)) rest)
          = dictInsertAll key val rest (dictSet acc (key x) (val x)) from rfl, ih,
        mem_keysOf_dictSet]
    tauto

theorem nodup_keysOf_dictInsertAll {γ α β : Type} [DecidableEq α]
    (key : γ → α) (val : γ → β) (xs : List γ) (acc : List (α × β))
    (h : (keysOf acc).Nodup) :
    (keysOf (dictInsertAll key val xs acc)).Nodup := by
  induction xs generalizing acc with
  | nil => simpa [dictInsertAll] using h
  | cons x rest ih =>
    simp only [dictInsertAll, List.foldl_cons]
    exact ih (dictSet acc (key x) (val x)) (nodup_keysOf_dictSet _ _ _ h)

theorem dictFind_dictInsertAll {γ α β : Type} [DecidableEq α]
    (key : γ → α) (val : γ → β) (xs : List γ) (acc : List (α × β)) (k : α) :
    dictFind (dictInsertAll key val xs acc) k =
      match xs.reverse.find? (fun x => decide (key x = k)) with
      | some x => some (val x)
      | none => dictFind acc k := by
  induction xs generalizing acc with
  | nil => simp [dictInsertAll]
  | cons x rest ih =>
    simp only [dictInsertAll, List.foldl_cons, List.reverse_cons, List.find?_append]
    rw [show (List.foldl (fun m y => dictSet m (key y) (val y)) (dictSet acc (key x) (val x)) rest)
          = dictInsertAll key val rest (dictSet acc (key x) (val x)) from rfl, ih]
    cases hf : rest.reverse.find? (fun y => decide (key y = k)) with
    | some y => rw [Option.or_some]
    | none =>
      rw [Option.none_or]
      by_cases hk : key x = k
      · subst hk
        simp [dictFind_dictSet_self, List.find?]
      · simp [dictFind_dictSet_ne acc (key x) k (val x) (Ne.symm hk), List.find?, hk]

theorem forall_mem_dictInsertAll {γ α β : Type} [DecidableEq α]
    (key : γ → α) (val : γ → β) (xs : List γ) (acc : List (α × β))
    (P : α × β → Prop) (hacc : ∀ p ∈ acc, P p) (hxs : ∀ x ∈ xs, P (key x, val x)) :
    ∀ p ∈ dictInsertAll key val xs acc, P p := by
  induction xs generalizing acc with
  | nil => simpa [dictInsertAll] using hacc
  | cons x rest ih =>
    simp only [dictInsertAll, List.foldl_cons]
    exact ih (dictSet acc (key x) (val x))
      (forall_mem_dictSet _ _ _ _ hacc (hxs x (List.mem_cons_self _ _)))
      (fun y hy => hxs y (List.mem_cons_of_mem _ hy))

theorem keysOf_dictInsertAll_order {γ α β : Type} [DecidableEq α]
    (key : γ → α) (val : γ → β) (xs : List γ) (acc : List (α × β)) :
    keysOf (dictInsertAll key val xs acc) =
      xs.foldl (fun ks x => if key x ∈ ks then ks else ks ++ [key x]) (keysOf acc) := by
  induction xs generalizing acc with
  | nil => simp [dictInsertAll]
  | cons x rest ih =>
    simp only [dictInsertAll, List.foldl_cons]
    rw [show (List.foldl (fun m y => dictSet m (key y) (val y)) (dictSet acc (key x) (val x)) rest)
          = dictInsertAll key val rest (dictSet acc (key x) (val x)) from rfl, ih,
        keysOf_dictSet]

theorem dictFind_of_mem_nodup {α β : Type} [DecidableEq α]
    (m : List (α × β)) (p : α × β)
    (hnd : (keysOf m).Nodup) (hm : p ∈ m) : dictFind m p.1 = some p.2 := by
  induction m with
  | nil => cases hm
  | cons q rest ih =>
    rw [keysOf_cons, List.nodup_cons] at hnd
    rcases List.mem_cons.mp hm with rfl | hm'
    · simp [dictFind]
    · have hq : ¬ q.1 = p.1 := by
        intro hh
        exact hnd.1 (hh ▸ List.mem_map.mpr ⟨p, hm', rfl⟩)
      simp only [dictFind, if_neg hq]
      exact ih hnd.2 hm'

/-- Lemma: `for it in l: out.append(f(it))` is `map`. -/
theorem foldl_append_eq_map {α β : Type} (f : α → β) :
    ∀ (l : List α) (acc : List β),
      l.foldl (fun out it => out ++ [f it]) acc = acc ++ l.map f := by
  intro l
  induction l with
  | nil => simp
  | cons x rest ih => intro acc; simp [ih]

/-- If every attempt fails with the same error, `safe_get` walks the whole
retry loop: one attempt per index, one backoff per non-final index. -/
theorem safeGetFrom_error_all (att : Nat → Except String Unit) (e : String)
    (h : ∀ j, att j = Except.error e) :
    ∀ (n retries i : Nat), retries - i = n → i ≤ retries →
      safeGetFrom att retries i = ⟨n + 1, n, Except.error e⟩ := by
  intro n
  induction n with
  | zero =>
    intro retries i hn hi
    rw [safeGetFrom.eq_def, h i]
    have hlt : ¬ i < retries := by omega
    simp [hlt]
  | succ m ih =>
    intro retries i hn hi
    rw [safeGetFrom.eq_def, h i]
    have hlt : i < retries := by omega
    simp only [dif_pos hlt]
    rw [ih retries (i + 1) (by omega) (by omega)]

/-! ## Claim C4 — robots denial and the retry loop -/

/-- C4 counterexample.  The claim says a robots-denied fetch "fails
immediately with the PolicyBlocked error on the first attempt, without
performing any retry attempts or backoff sleeps".  With the default
`RETRIES = 3`, a robots-denied `safe_get` in fact performs 4 attempts and
3 backoff sleeps before re-raising the robots error: the generic
`except Exception` handler catches the robots exception like any other. -/
theorem C4_counterexample_robots_block_retried :
    (safeGet (attemptOnce false (fun _ => Except.ok ())) RETRIES_DEFAULT).attempts = 4 ∧
    (safeGet (attemptOnce false (fun _ => Except.ok ())) RETRIES_DEFAULT).backoffs = 3 ∧
    (safeGet (attemptOnce false (fun _ => Except.ok ())) RETRIES_DEFAULT).result =
      Except.error "Blocked by robots.txt rules" := by
  have h := safeGetFrom_error_all (attemptOnce false (fun _ => Except.ok ()))
    "Blocked by robots.txt rules" (fun _ => rfl) 3 3 0 rfl (by omega)
  refine ⟨?_, ?_, ?_⟩ <;> rw [safeGet, RETRIES_DEFAULT, h]

/-- C4 (amended): a robots-denied URL fails on *every* attempt with the
robots-blocked error, and that error is treated like any retryable failure:
`safe_get` performs all `RETRIES + 1` attempts with `RETRIES` backoff
sleeps, then re-raises the robots error (whereas the claim said the failure
is immediate, with a distinguished non-retryable `PolicyBlocked`). -/
theorem C4_robots_denied_is_retried (f : Nat → Except String Unit) (retries : Nat) :
    safeGet (attemptOnce false f) retries =
      ⟨retries + 1, retries, Except.error "Blocked by robots.txt rules"⟩ := by
  rw [safeGet]
  exact safeGetFrom_error_all _ _ (fun _ => rfl) retries retries 0 (by omega) (by omega)

/-! ## Claim C5 — listing dedup by link -/

/-- C5 counterexample.  The claim says the dedup keeps the *first-seen*
title for a duplicated link; two rows with link `"l"` and titles
`"A"` then `"B"` in fact yield the single row with title `"B"`
(`uniq[r["link"]] = r` overwrites the stored row). -/
theorem C5_counterexample_first_title_lost :
    gatherDedup [⟨"A", "l"⟩, ⟨"B", "l"⟩] = [⟨"B", "l"⟩] ∧
    (gatherDedup [⟨"A", "l"⟩, ⟨"B", "l"⟩]).map ListingRow.title ≠ ["A"] := by
  exact ⟨rfl, by decide⟩

/-- C5 (amended): the final dedup of `gather_all_listing_links` keeps, for
each link, the *last*-seen row (so the last-seen title), and emits one row
per distinct link in first-occurrence order of links. -/
theorem C5_dedup_keeps_last_seen (rows : List ListingRow) :
    ((gatherDedup rows).map ListingRow.link).Nodup ∧
    (gatherDedup rows).map ListingRow.link = firstOcc (rows.map ListingRow.link) ∧
    ∀ r ∈ gatherDedup rows,
      rows.reverse.find? (fun r' => decide (r'.link = r.link)) = some r := by
  have hdef : gatherDedup rows =
      (dictInsertAll ListingRow.link id rows []).map Prod.snd := rfl
  set m := dictInsertAll ListingRow.link id rows [] with hm
  have hinv : ∀ p ∈ m, (Prod.snd p).link = p.1 :=
    forall_mem_dictInsertAll _ _ _ _ _ (by simp) (fun x _ => rfl)
  have hnd : (keysOf m).Nodup :=
    nodup_keysOf_dictInsertAll _ _ _ _ (by simp [keysOf])
  have hkeys : (gatherDedup rows).map ListingRow.link = keysOf m := by
    rw [hdef, List.map_map]
    exact List.map_congr_left hinv
  refine ⟨?_, ?_, ?_⟩
  · rw [hkeys]; exact hnd
  · rw [hkeys, hm, keysOf_dictInsertAll_order, firstOcc, List.foldl_map]
    rfl
  · intro r hr
    rw [hdef] at hr
    obtain ⟨p, hp, hpr⟩ := List.mem_map.mp hr
    have hfind : dictFind m p.1 = some p.2 := dictFind_of_mem_nodup m p hnd hp
    have hlink : r.link = p.1 := by rw [← hpr]; exact hinv p hp
    rw [hm, dictFind_dictInsertAll] at hfind
    rcases hf : rows.reverse.find? (fun x => decide (ListingRow.link x = p.1)) with _ | y
    · rw [hf] at hfind; simp [dictFind] at hfind
    · rw [hf] at hfind
      simp only [Option.some.injEq, id] at hfind
      have : (fun r' => decide (r'.link = r.link)) =
          (fun x => decide (ListingRow.link x = p.1)) := by
        funext x; rw [hlink]
      rw [this, hf, hfind, hpr]

/-! ## Claim C6 — detail worker drops nothing -/

/-- C6: `worker_detail_batch` returns exactly one record per input item,
in order; an item whose extraction raises contributes the minimal record
(stub title and link, no authors, no date, empty abstract) instead of
aborting the batch. -/
theorem C6_worker_one_record_per_item
    (extract : ListingRow → Except String DetailRec) (batch : List ListingRow) :
    (workerDetailBatch extract batch).length = batch.length ∧
    workerDetailBatch extract batch = batch.map (fun it =>
      match extract it with
      | Except.ok rec => rec
      | Except.error _ => minimalRecord it) := by
  have h : workerDetailBatch extract batch = batch.map (fun it =>
      match extract it with
      | Except.ok rec => rec
      | Except.error _ => minimalRecord it) := by
    rw [workerDetailBatch, foldl_append_eq_map, List.nil_append]
  exact ⟨by rw [h, List.length_map], h⟩

/-! ## Claim C2 — merge of stubs and details -/

/-- C2: the merge map keyed by link yields no duplicate links, every stub's
link appears exactly once among the output values, and for every link
carried by some detail record the stored value is a detail record (the last
one with that link), never the stub. -/
theorem C2_merge_by_link (listing : List ListingRow) (details : List DetailRec) :
    ((mergeByLink listing details).map MergedVal.link).Nodup ∧
    (∀ it ∈ listing,
      ((mergeByLink listing details).map MergedVal.link).count it.link = 1) ∧
    (∀ rec ∈ details, ∃ rec' ∈ details, rec'.link = rec.link ∧
      dictFind (mergeMap listing details) rec.link = some (Sum.inr rec')) := by
  have hdef : mergeMap listing details =
      dictInsertAll DetailRec.link Sum.inr details
        (dictInsertAll ListingRow.link
          (fun it => Sum.inl (⟨it.title, it.link⟩ : ListingRow)) listing []) := rfl
  set m0 := dictInsertAll ListingRow.link
    (fun it => Sum.inl (⟨it.title, it.link⟩ : ListingRow)) listing [] with hm0
  set m1 := dictInsertAll DetailRec.link Sum.inr details m0 with hm1
  have hinv : ∀ p ∈ m1, MergedVal.link (Prod.snd p) = p.1 := by
    refine forall_mem_dictInsertAll _ _ _ _ _ ?_ (fun x _ => rfl)
    exact forall_mem_dictInsertAll _ _ _ _ _ (by simp) (fun x _ => rfl)
  have hnd0 : (keysOf m0).Nodup :=
    nodup_keysOf_dictInsertAll _ _ _ _ (by simp [keysOf])
  have hnd : (keysOf m1).Nodup := nodup_keysOf_dictInsertAll _ _ _ _ hnd0
  have hkeys : (mergeByLink listing details).map MergedVal.link = keysOf m1 := by
    rw [mergeByLink, hdef, List.map_map]
    exact List.map_congr_left hinv
  refine ⟨by rw [hkeys]; exact hnd, ?_, ?_⟩
  · intro it hit
    have hmem : it.link ∈ keysOf m1 := by
      rw [hm1, mem_keysOf_dictInsertAll]
      left
      rw [hm0, mem_keysOf_dictInsertAll]
      right
      exact List.mem_map.mpr ⟨it, hit, rfl⟩
    rw [hkeys]
    exact List.count_eq_one_of_mem hnd hmem
  · intro rec hrec
    have hsome : (details.reverse.find?
        (fun x => decide (DetailRec.link x = rec.link))).isSome := by
      rw [List.find?_isSome]
      exact ⟨rec, List.mem_reverse.mpr hrec, by simp⟩
    obtain ⟨y, hy⟩ := Option.isSome_iff_exists.mp hsome
    have hylink : y.link = rec.link := by
      have := List.find?_some hy
      simpa using this
    have hymem : y ∈ details := List.mem_reverse.mp (List.mem_of_find?_eq_some hy)
    refine ⟨y, hymem, hylink, ?_⟩
    rw [hdef, dictFind_dictInsertAll, hy]

/-! ## Claim C8 — query cache eviction -/

theorem minByTs_foldl_spec {V : Type} :
    ∀ (c : List (String × CacheEntry V)) (q : String × CacheEntry V),
      ∃ p, c.foldl
          (fun acc r =>
            match acc with
            | none => some r
            | some s => if r.2.ts < s.2.ts then some r else some s)
          (some q) = some p ∧
        (p = q ∨ p ∈ c) ∧ p.2.ts ≤ q.2.ts ∧ ∀ r ∈ c, p.2.ts ≤ r.2.ts := by
  intro c
  induction c with
  | nil => exact fun q => ⟨q, rfl, Or.inl rfl, le_refl _, by simp⟩
  | cons r rest ih =>
    intro q
    simp only [List.foldl_cons]
    by_cases hlt : r.2.ts < q.2.ts
    · obtain ⟨p, hfold, hmem, hle, hall⟩ := ih r
      rw [if_pos hlt]
      refine ⟨p, hfold, ?_, le_of_lt (lt_of_le_of_lt hle hlt), ?_⟩
      · rcases hmem with rfl | hmem
        · exact Or.inr (List.mem_cons_self _ _)
        · exact Or.inr (List.mem_cons_of_mem _ hmem)
      · intro s hs
        rcases List.mem_cons.mp hs with rfl | hs
        · exact hle
        · exact hall s hs
    · obtain ⟨p, hfold, hmem, hle, hall⟩ := ih q
      rw [if_neg hlt]
      refine ⟨p, hfold, ?_, hle, ?_⟩
      · rcases hmem with rfl | hmem
        · exact Or.inl rfl
        · exact Or.inr (List.mem_cons_of_mem _ hmem)
      · intro s hs
        rcases List.mem_cons.mp hs with rfl | hs
        · exact le_trans hle (not_lt.mp hlt)
        · exact hall s hs

/-- On a nonempty cache, `min(items, key=ts)` returns a member whose
timestamp is minimal. -/
theorem minByTs_spec {V : Type} (c : List (String × CacheEntry V)) (hne : c ≠ []) :
    ∃ p, minByTs c = some p ∧ p ∈ c ∧ ∀ q ∈ c, p.2.ts ≤ q.2.ts := by
  match c, hne with
  | r :: rest, _ =>
    obtain ⟨p, hfold, hmem, hle, hall⟩ := minByTs_foldl_spec rest r
    refine ⟨p, ?_, ?_, ?_⟩
    · rw [minByTs, List.foldl_cons]
      exact hfold
    · rcases hmem with rfl | hmem
      · exact List.mem_cons_self _ _
      · exact List.mem_cons_of_mem _ hmem
    · intro q hq
      rcases List.mem_cons.mp hq with rfl | hq
      · exact hle
      · exact hall q hq

theorem dictPop_eq_self {V : Type} (c : List (String × CacheEntry V)) (k : String)
    (h : k ∉ keysOf c) : dictPop c k = c := by
  induction c with
  | nil => rfl
  | cons p rest ih =>
    rw [keysOf_cons, List.mem_cons] at h
    push_neg at h
    rw [dictPop, List.filter_cons]
    have : (!(p.1 == k)) = true := by
      simp only [Bool.not_eq_true', beq_eq_false_iff_ne]
      exact fun hh => h.1 hh.symm
    rw [if_pos this]
    rw [dictPop] at ih
    rw [ih h.2]

theorem length_dictPop {V : Type} (c : List (String × CacheEntry V))
    (p : String × CacheEntry V)
    (hnd : (keysOf c).Nodup) (hp : p ∈ c) :
    (dictPop c p.1).length + 1 = c.length := by
  induction c with
  | nil => cases hp
  | cons q rest ih =>
    rw [keysOf_cons, List.nodup_cons] at hnd
    rcases List.mem_cons.mp hp with rfl | hp'
    · rw [dictPop, List.filter_cons]
      have hq : (!(p.1 == p.1)) = false := by simp
      rw [if_neg (by rw [hq]; exact Bool.false_ne_true)]
      have hnotin : p.1 ∉ keysOf rest := hnd.1
      rw [show List.filter (fun r => !(r.1 == p.1)) rest = dictPop rest p.1 from rfl,
        dictPop_eq_self rest p.1 hnotin, List.length_cons]
    · have hqp : q.1 ≠ p.1 := by
        intro hh
        exact hnd.1 (hh ▸ List.mem_map.mpr ⟨p, hp', rfl⟩)
      rw [dictPop, List.filter_cons]
      have : (!(q.1 == p.1)) = true := by
        simp only [Bool.not_eq_true', beq_eq_false_iff_ne]
        exact hqp
      rw [if_pos this, List.length_cons, List.length_cons,
        show List.filter (fun r => !(r.1 == p.1)) rest = dictPop rest p.1 from rfl,
        ih hnd.2 hp']

/-- C8: starting from a cache within capacity (`0 < MAX_ENTRIES`, distinct
keys), `_cache_set` keeps the cache within capacity, and whenever the cache
is at or beyond capacity the insertion first evicts exactly the entry with
the minimal timestamp (the first such entry in insertion order). -/
theorem C8_cache_bounded_evicts_oldest {V : Type} (maxE : Nat)
    (c : List (String × CacheEntry V)) (k : String) (now : Nat) (v : V)
    (hpos : 0 < maxE) (hlen : c.length ≤ maxE) (hnd : (keysOf c).Nodup) :
    (cacheSet maxE c k now v).length ≤ maxE ∧
    (maxE ≤ c.length →
      ∃ p, minByTs c = some p ∧ p ∈ c ∧ (∀ q ∈ c, p.2.ts ≤ q.2.ts) ∧
        cacheSet maxE c k now v = dictSet (dictPop c p.1) k ⟨now, v⟩) := by
  by_cases hcap : maxE ≤ c.length
  · have hne : c ≠ [] := by
      intro hc
      rw [hc] at hcap
      simp at hcap
      omega
    obtain ⟨p, hmin, hmem, hall⟩ := minByTs_spec c hne
    have hset : cacheSet maxE c k now v = dictSet (dictPop c p.1) k ⟨now, v⟩ := by
      rw [cacheSet]
      simp only [if_pos hcap, hmin]
    constructor
    · rw [hset]
      have hlenpop : (dictPop c p.1).length + 1 = c.length :=
        length_dictPop c p hnd hmem
      rw [length_dictSet]
      by_cases hk : k ∈ keysOf (dictPop c p.1)
      · rw [if_pos hk]; omega
      · rw [if_neg hk]; omega
    · exact fun _ => ⟨p, hmin, hmem, hall, hset⟩
  · constructor
    · rw [cacheSet]
      simp only [if_neg hcap]
      rw [length_dictSet]
      by_cases hk : k ∈ keysOf c
      · rw [if_pos hk]; omega
      · rw [if_neg hk]; omega
    · exact fun h => absurd h hcap

/-- C8 witness: a concrete full cache (capacity 2) evicts the entry with the
smaller timestamp (`"b"`, ts 3) on the next insertion. -/
theorem C8_cache_bounded_evicts_oldest_witness :
    (0 < 2 ∧ ([("a", ⟨5, 0⟩), ("b", ⟨3, 1⟩)] : List (String × CacheEntry Nat)).length ≤ 2 ∧
      (keysOf ([("a", ⟨5, 0⟩), ("b", ⟨3, 1⟩)] : List (String × CacheEntry Nat))).Nodup) ∧
    ((cacheSet 2 ([("a", ⟨5, 0⟩), ("b", ⟨3, 1⟩)] : List (String × CacheEntry Nat))
        "x" 9 7).length ≤ 2 ∧
      (2 ≤ ([("a", ⟨5, 0⟩), ("b", ⟨3, 1⟩)] : List (String × CacheEntry Nat)).length →
        ∃ p, minByTs ([("a", ⟨5, 0⟩), ("b", ⟨3, 1⟩)] : List (String × CacheEntry Nat)) = some p ∧
          p ∈ ([("a", ⟨5, 0⟩), ("b", ⟨3, 1⟩)] : List (String × CacheEntry Nat)) ∧
          (∀ q ∈ ([("a", ⟨5, 0⟩), ("b", ⟨3, 1⟩)] : List (String × CacheEntry Nat)),
            p.2.ts ≤ q.2.ts) ∧
          cacheSet 2 ([("a", ⟨5, 0⟩), ("b", ⟨3, 1⟩)] : List (String × CacheEntry Nat))
              "x" 9 7 =
            dictSet (dictPop ([("a", ⟨5, 0⟩), ("b", ⟨3, 1⟩)] :
              List (String × CacheEntry Nat)) p.1) "x" ⟨9, 7⟩)) :=
  ⟨⟨by decide, by decide, by decide⟩,
    C8_cache_bounded_evicts_oldest 2 [("a", ⟨5, 0⟩), ("b", ⟨3, 1⟩)] "x" 9 7
      (by decide) (by decide) (by decide)⟩

/-! ## Claim C3 — indexer invariants -/

theorem mem_of_dictFind_eq_some {α β : Type} [DecidableEq α]
    (m : List (α × β)) (k : α) (v : β) (h : dictFind m k = some v) : (k, v) ∈ m := by
  induction m with
  | nil => cases h
  | cons p rest ih =>
    simp only [dictFind] at h
    by_cases hp : p.1 = k
    · rw [if_pos hp] at h
      injection h with h
      have hkv : (k, v) = p := by rw [← hp, ← h]
      exact hkv ▸ List.mem_cons_self _ _
    · rw [if_neg hp] at h
      exact List.mem_cons_of_mem _ (ih h)

/-- An invariant preserved by every step of a fold is preserved by the fold. -/
theorem foldl_inv {σ χ : Type} (step : σ → χ → σ) (P : σ → Prop)
    (hstep : ∀ s x, P s → P (step s x)) :
    ∀ (xs : List χ) (s : σ), P s → P (xs.foldl step s) := by
  intro xs
  induction xs with
  | nil => exact fun s h => h
  | cons x rest ih => exact fun s h => ih (step s x) (hstep s x h)

/-- Lemma: `addDoc` keeps every entry's postings keys free of duplicates. -/
theorem addDoc_postings_nodup (docId : Nat) (counts : List (String × Nat))
    (idx : List (String × IndexEntry))
    (h : ∀ p ∈ idx, (keysOf p.2.postings).Nodup) :
    ∀ p ∈ addDoc idx docId counts, (keysOf p.2.postings).Nodup := by
  refine foldl_inv _ (fun m => ∀ p ∈ m, (keysOf p.2.postings).Nodup) ?_ counts idx h
  intro m tc hm
  refine forall_mem_dictSet _ _ _ _ hm ?_
  cases hf : dictFind m tc.1 with
  | none =>
    simp only [hf, Option.getD_none]
    exact nodup_keysOf_dictSet _ _ _ (by simp [keysOf])
  | some e =>
    simp only [hf, Option.getD_some]
    exact nodup_keysOf_dictSet _ _ _ (hm _ (mem_of_dictFind_eq_some m tc.1 e hf))

/-- The `doc_len` component accumulated by the document loop. -/
theorem buildFold_docLen :
    ∀ (docs : List (List String)) (st : List (String × IndexEntry) × List Nat × Nat),
      (docs.foldl buildStep st).2.1 = st.2.1 ++ docs.map (fun d => max 1 d.length) := by
  intro docs
  induction docs with
  | nil => intro st; simp
  | cons d rest ih =>
    intro st
    rw [List.foldl_cons, ih]
    simp [buildStep, List.append_assoc]

/-- C3: for every list of (tokenized) publications, `build_inverted_index`
produces `doc_len` parallel to the documents with `doc_len[i] = max(1,
len(tokens_i))` (hence `doc_len[i] ≥ 1`), and an index in which every term's
`df` equals the number of distinct document ids of its postings map. -/
theorem C3_index_invariants (docs : List (List String)) :
    (buildInvertedIndex docs).1 = docs.map (fun d => max 1 d.length) ∧
    (∀ l ∈ (buildInvertedIndex docs).1, 1 ≤ l) ∧
    (buildInvertedIndex docs).1.length = docs.length ∧
    (∀ p ∈ (buildInvertedIndex docs).2,
      p.2.df = p.2.postings.length ∧ (keysOf p.2.postings).Nodup ∧
      p.2.df = (p.2.postings.map Prod.fst).dedup.length) := by
  have hdl : (buildInvertedIndex docs).1 = docs.map (fun d => max 1 d.length) := by
    rw [buildInvertedIndex]
    simpa using buildFold_docLen docs ([], [], 0)
  have hinv : ∀ p ∈ (docs.foldl buildStep ([], [], 0)).1,
      (keysOf p.2.postings).Nodup := by
    refine foldl_inv buildStep
      (fun st : List (String × IndexEntry) × List Nat × Nat =>
        ∀ p ∈ st.1, (keysOf p.2.postings).Nodup) ?_ docs ([], [], 0) (by simp)
    intro st tokens hst
    exact addDoc_postings_nodup st.2.2 (countTokens tokens) st.1 hst
  refine ⟨hdl, ?_, ?_, ?_⟩
  · rw [hdl]
    intro l hl
    obtain ⟨d, _, rfl⟩ := List.mem_map.mp hl
    exact le_max_left _ _
  · rw [hdl, List.length_map]
  · intro p hp
    rw [buildInvertedIndex] at hp
    simp only [List.mem_map] at hp
    obtain ⟨q, hq, rfl⟩ := hp
    have hnd : (keysOf q.2.postings).Nodup := hinv q hq
    refine ⟨rfl, hnd, ?_⟩
    have : (q.2.postings.map Prod.fst).dedup = q.2.postings.map Prod.fst :=
      List.dedup_eq_self.mpr hnd
    rw [this]
    simp [keysOf]

/-- C3 witness: on the concrete corpus `[["a", "b", "a"]]` the document
length is `3` and the single index entry has `df = len(postings) = 1`. -/
theorem C3_index_invariants_witness :
    (buildInvertedIndex [["a", "b", "a"]]).1 = [3] ∧
    ∀ p ∈ (buildInvertedIndex [["a", "b", "a"]]).2,
      p.2.df = p.2.postings.length :=
  ⟨((C3_index_invariants [["a", "b", "a"]]).1).trans (by decide),
   fun p hp => ((C3_index_invariants [["a", "b", "a"]]).2.2.2 p hp).1⟩

/-! ## Lemmas about the index-mode scorer -/

/-- The posting loop adds, for document `d`, the contributions of exactly
the posting entries keyed by `d`. -/
theorem dictFindD_addPostings (docLen : List Nat) (i : ℝ) (d : Nat) :
    ∀ (postings : List (Nat × Nat)) (sc : List (Nat × ℝ)),
      (dictFind (addPostings docLen i sc postings) d).getD 0 =
        (dictFind sc d).getD 0 +
          ((postings.filter (fun p => decide (p.1 = d))).map
            (fun p => ((p.2 : ℝ) / max 1 ((docLen.getD p.1 1 : Nat) : ℝ)) * i)).sum := by
  intro postings
  induction postings with
  | nil => intro sc; simp [addPostings]
  | cons q rest ih =>
    intro sc
    have hstep : addPostings docLen i sc (q :: rest) =
        addPostings docLen i
          (dictSet sc q.1
            (((dictFind sc q.1).getD 0) +
              ((q.2 : ℝ) / (max 1 ((docLen.getD q.1 1 : Nat) : ℝ))) * i))
          rest := rfl
    rw [hstep, ih, List.filter_cons]
    by_cases hq : q.1 = d
    · rw [if_pos (by simp [hq]), List.map_cons, List.sum_cons]
      have : dictFind
          (dictSet sc q.1
            (((dictFind sc q.1).getD 0) +
              ((q.2 : ℝ) / (max 1 ((docLen.getD q.1 1 : Nat) : ℝ))) * i)) d =
          some (((dictFind sc q.1).getD 0) +
              ((q.2 : ℝ) / (max 1 ((docLen.getD q.1 1 : Nat) : ℝ))) * i) := by
        rw [← hq]
        exact dictFind_dictSet_self _ _ _
      rw [this, Option.getD_some, hq]
      ring
    · rw [if_neg (by simp [hq])]
      rw [dictFind_dictSet_ne _ _ _ _ (fun hh => hq hh.symm)]

/-- The term loop accumulates, for document `d`, one contribution per query
token. -/
theorem dictFindD_scoreFold (index : List (String × IndexEntry))
    (docLen : List Nat) (nDocs : Nat) (d : Nat) :
    ∀ (tokens : List String) (sc : List (Nat × ℝ)),
      (dictFind (tokens.foldl (scoreStep index docLen nDocs) sc) d).getD 0 =
        (dictFind sc d).getD 0 +
          (tokens.map (termContribSum index docLen nDocs d)).sum := by
  intro tokens
  induction tokens with
  | nil => intro sc; simp
  | cons t rest ih =>
    intro sc
    rw [List.foldl_cons, ih, List.map_cons, List.sum_cons]
    cases hf : dictFind index t with
    | none =>
      rw [scoreStep.eq_def, hf, termContribSum.eq_def, hf]
      ring
    | some e =>
      rw [scoreStep.eq_def, hf, termContribSum.eq_def, hf]
      simp only []
      rw [dictFindD_addPostings]
      ring

/-- The accumulated score of document `d` is the sum of the per-token
contributions. -/
theorem searchScores_eq_sum (index : List (String × IndexEntry))
    (docLen : List Nat) (nDocs : Nat) (d : Nat) (tokens : List String) :
    (dictFind (searchScores index docLen nDocs tokens) d).getD 0 =
      (tokens.map (termContribSum index docLen nDocs d)).sum := by
  rw [searchScores, dictFindD_scoreFold]
  simp [dictFind]

/-- On a map with duplicate-free keys, filtering by one key yields exactly
the binding `dictFind` returns. -/
theorem filter_key_eq_of_nodup {α β : Type} [DecidableEq α] :
    ∀ (m : List (α × β)) (k : α), (keysOf m).Nodup →
      m.filter (fun p => decide (p.1 = k)) =
        (match dictFind m k with
          | some v => [(k, v)]
          | none => []) := by
  intro m
  induction m with
  | nil => intro k _; simp [dictFind]
  | cons p rest ih =>
    intro k hnd
    rw [keysOf_cons, List.nodup_cons] at hnd
    rw [List.filter_cons]
    by_cases hp : p.1 = k
    · rw [if_pos (by simp [hp])]
      have hnotin : k ∉ keysOf rest := hp ▸ hnd.1
      have hrest : rest.filter (fun q => decide (q.1 = k)) = [] := by
        rw [List.filter_eq_nil_iff]
        intro q hq
        simp only [decide_eq_true_eq]
        intro hh
        exact hnotin (hh ▸ List.mem_map.mpr ⟨q, hq, rfl⟩)
      rw [hrest, dictFind.eq_def]
      simp only [if_pos hp]
      have : p = (k, p.2) := by rw [← hp]
      rw [← this]
    · rw [if_neg (by simp [hp]), dictFind.eq_def]
      simp only [if_neg hp]
      exact ih k hnd.2

/-- With duplicate-free postings keys the filter-sum contribution is the
single-posting formula of the spec. -/
theorem termContribSum_eq_termContrib (index : List (String × IndexEntry))
    (docLen : List Nat) (nDocs : Nat) (d : Nat) (t : String)
    (hpost : ∀ p ∈ index, (keysOf p.2.postings).Nodup) :
    termContribSum index docLen nDocs d t = termContrib index docLen nDocs d t := by
  rw [termContribSum.eq_def, termContrib.eq_def]
  cases hf : dictFind index t with
  | none => rfl
  | some e =>
    simp only []
    have hnd : (keysOf e.postings).Nodup :=
      hpost (t, e) (mem_of_dictFind_eq_some index t e hf)
    rw [filter_key_eq_of_nodup e.postings d hnd]
    cases hg : dictFind e.postings d with
    | none => rfl
    | some tf => simp

/-- Membership in the accumulated postings keys. -/
theorem mem_keysOf_addPostings (docLen : List Nat) (i : ℝ) (d : Nat) :
    ∀ (postings : List (Nat × Nat)) (sc : List (Nat × ℝ)),
      d ∈ keysOf (addPostings docLen i sc postings) ↔
        d ∈ keysOf sc ∨ d ∈ keysOf postings := by
  intro postings
  induction postings with
  | nil => intro sc; simp [addPostings, keysOf]
  | cons q rest ih =>
    intro sc
    have hstep : addPostings docLen i sc (q :: rest) =
        addPostings docLen i
          (dictSet sc q.1
            (((dictFind sc q.1).getD 0) +
              ((q.2 : ℝ) / (max 1 ((docLen.getD q.1 1 : Nat) : ℝ))) * i))
          rest := rfl
    rw [hstep, ih, mem_keysOf_dictSet, keysOf_cons, List.mem_cons]
    tauto

/-- A document enters the scores dict exactly when some query token hits an
index entry whose postings mention it. -/
theorem mem_keysOf_scoreFold (index : List (String × IndexEntry))
    (docLen : List Nat) (nDocs : Nat) (d : Nat) :
    ∀ (tokens : List String) (sc : List (Nat × ℝ)),
      d ∈ keysOf (tokens.foldl (scoreStep index docLen nDocs) sc) ↔
        d ∈ keysOf sc ∨
          ∃ t ∈ tokens, ∃ e, dictFind index t = some e ∧ d ∈ keysOf e.postings := by
  intro tokens
  induction tokens with
  | nil => intro sc; simp
  | cons t rest ih =>
    intro sc
    rw [List.foldl_cons, ih]
    cases hf : dictFind index t with
    | none =>
      rw [scoreStep.eq_def, hf]
      simp only [List.mem_cons]
      constructor
      · rintro (h | ⟨u, hu, e, he, hd⟩)
        · exact Or.inl h
        · exact Or.inr ⟨u, Or.inr hu, e, he, hd⟩
      · rintro (h | ⟨u, rfl | hu, e, he, hd⟩)
        · exact Or.inl h
        · rw [hf] at he; cases he
        · exact Or.inr ⟨u, hu, e, he, hd⟩
    | some en =>
      rw [scoreStep.eq_def, hf]
      simp only [List.mem_cons, mem_keysOf_addPostings]
      constructor
      · rintro (⟨h | h⟩ | ⟨u, hu, e, he, hd⟩)
        · exact Or.inl h
        · exact Or.inr ⟨t, Or.inl rfl, en, hf, h⟩
        · exact Or.inr ⟨u, Or.inr hu, e, he, hd⟩
      · rintro (h | ⟨u, rfl | hu, e, he, hd⟩)
        · exact Or.inl (Or.inl h)
        · rw [hf] at he
          injection he with he
          exact Or.inl (Or.inr (he ▸ hd))
        · exact Or.inr ⟨u, hu, e, he, hd⟩

/-- The ranked list is sorted by descending score. -/
theorem searchRanked_sorted (index : List (String × IndexEntry))
    (docLen : List Nat) (nDocs : Nat) (tokens : List String) :
    (searchRanked index docLen nDocs tokens).Pairwise
      (fun a b : Nat × ℝ => b.2 ≤ a.2) := by
  have h := @List.sorted_mergeSort (Nat × ℝ)
    (fun a b : Nat × ℝ => decide (b.2 ≤ a.2))
    (fun a b c hab hbc => by
      simp only [decide_eq_true_eq] at hab hbc ⊢
      exact le_trans hbc hab)
    (fun a b => by
      rcases le_total a.2 b.2 with h | h <;> simp [h])
    (searchScores index docLen nDocs tokens)
  rw [searchRanked]
  exact h.imp (fun hab => by simpa using hab)

/-! ## Claim C1 — index-mode scoring contract -/

/-- C1: in index mode, for every non-blank query, the engine scores each
document as the sum over query tokens of `(tf / doc_len) * idf` with
`idf = ln((N+1)/(df+1)) + 1`; a document mentioned by no query term never
appears in the output; every surviving entry has score at least the `0.01`
relevance floor; the output is ordered by descending accumulated score; and
on the index `{"t1": {"df": 1, "postings": {"0": 2}}}` with `doc_len = [10]`
and one document, the query `"t1"` returns that document with score `0.2`. -/
theorem C1_index_mode_search (pubs : List Pub) (index : List (String × IndexEntry))
    (docLen : List Nat) (tokenize : String → List String) (query : String) (d : Nat)
    (hq : pyStripEmpty query = false)
    (hpost : ∀ p ∈ index, (keysOf p.2.postings).Nodup) :
    (engineSearch pubs index docLen tokenize query =
      (searchFiltered index docLen pubs.length (tokenize query)).map
        (fun p => ⟨pubs.getD p.1 default, round2 p.2⟩)) ∧
    ((dictFind (searchScores index docLen pubs.length (tokenize query)) d).getD 0 =
      ((tokenize query).map (termContrib index docLen pubs.length d)).sum) ∧
    ((¬ ∃ t ∈ tokenize query, ∃ e, dictFind index t = some e ∧ d ∈ keysOf e.postings) →
      d ∉ (searchFiltered index docLen pubs.length (tokenize query)).map Prod.fst) ∧
    (∀ p ∈ searchFiltered index docLen pubs.length (tokenize query), (0.01 : ℝ) ≤ p.2) ∧
    ((searchFiltered index docLen pubs.length (tokenize query)).Pairwise
      (fun a b => b.2 ≤ a.2)) ∧
    engineSearch [⟨"Doc0", "L0", [], "", ""⟩] [("t1", ⟨1, [(0, 2)]⟩)] [10]
        (fun _ => ["t1"]) "t1" =
      [⟨⟨"Doc0", "L0", [], "", ""⟩, 0.2⟩] := by
  refine ⟨?_, ?_, ?_, ?_, ?_, ?_⟩
  · rw [engineSearch, if_neg (by rw [hq]; exact Bool.false_ne_true)]
    rfl
  · rw [searchScores_eq_sum]
    exact congrArg List.sum (List.map_congr_left
      (fun t _ => termContribSum_eq_termContrib index docLen pubs.length d t hpost))
  · intro hno hmem
    obtain ⟨p, hp, hpd⟩ := List.mem_map.mp hmem
    have hp1 : p ∈ searchRanked index docLen pubs.length (tokenize query) :=
      List.mem_of_mem_filter hp
    rw [searchRanked, List.mem_mergeSort] at hp1
    have : d ∈ keysOf (searchScores index docLen pubs.length (tokenize query)) :=
      hpd ▸ List.mem_map.mpr ⟨p, hp1, rfl⟩
    rw [searchScores, mem_keysOf_scoreFold] at this
    rcases this with h | h
    · simp [keysOf] at h
    · exact hno h
  · intro p hp
    have := (List.mem_filter.mp hp).2
    simp only [Bool.not_eq_true', decide_eq_false_iff_not, not_lt] at this
    exact this
  · exact (searchRanked_sorted index docLen pubs.length (tokenize query)).filter _
  · have hidf : idfOf 1 1 = 1 := by
      rw [idfOf]
      norm_num
    have hscores0 : searchScores [("t1", (⟨1, [(0, 2)]⟩ : IndexEntry))] [10] 1 ["t1"] =
        [(0, (dictFind ([] : List (Nat × ℝ)) 0).getD 0 +
          (((2 : ℕ) : ℝ) / max 1 ((([10].getD 0 1 : ℕ)) : ℝ)) * idfOf 1 1)] := rfl
    have hval : (dictFind ([] : List (Nat × ℝ)) 0).getD 0 +
        (((2 : ℕ) : ℝ) / max 1 ((([10].getD 0 1 : ℕ)) : ℝ)) * idfOf 1 1 = 0.2 := by
      rw [hidf]
      norm_num [dictFind]
    have hscores : searchScores [("t1", (⟨1, [(0, 2)]⟩ : IndexEntry))] [10] 1 ["t1"] =
        [(0, (0.2 : ℝ))] := by rw [hscores0, hval]
    have hranked : searchRanked [("t1", (⟨1, [(0, 2)]⟩ : IndexEntry))] [10] 1 ["t1"] =
        [(0, (0.2 : ℝ))] := by
      rw [searchRanked, hscores, List.mergeSort_singleton]
    have hfiltered : searchFiltered [("t1", (⟨1, [(0, 2)]⟩ : IndexEntry))] [10] 1 ["t1"] =
        [(0, (0.2 : ℝ))] := by
      rw [searchFiltered, hranked, List.filter_cons,
        decide_eq_false (show ¬ ((0.2 : ℝ) < 0.01) by norm_num)]
      simp
    have hround : round2 (0.2 : ℝ) = 0.2 := by
      rw [round2]
      rw [show (0.2 : ℝ) * 100 = ((20 : ℤ) : ℝ) by norm_num, round_intCast]
      norm_num
    rw [engineSearch, if_neg (by decide), searchIndexMode,
      show ([⟨"Doc0", "L0", [], "", ""⟩] : List Pub).length = 1 from rfl, hfiltered]
    simp [hround]

/-- C1 witness: the scenario instance, with both hypotheses discharged on the
concrete index. -/
theorem C1_index_mode_search_witness :
    (pyStripEmpty "t1" = false ∧
      ∀ p ∈ [("t1", (⟨1, [(0, 2)]⟩ : IndexEntry))], (keysOf p.2.postings).Nodup) ∧
    engineSearch [⟨"Doc0", "L0", [], "", ""⟩] [("t1", ⟨1, [(0, 2)]⟩)] [10]
        (fun _ => ["t1"]) "t1" =
      [⟨⟨"Doc0", "L0", [], "", ""⟩, 0.2⟩] :=
  ⟨⟨by decide, by decide⟩,
   (C1_index_mode_search [⟨"Doc0", "L0", [], "", ""⟩] [("t1", ⟨1, [(0, 2)]⟩)] [10]
      (fun _ => ["t1"]) "t1" 0 (by decide) (by decide)).2.2.2.2.2⟩

/-! ## Claim C9 — monotonicity of the score in a term frequency -/

/-- C9 counterexample.  The claim quantifies over *every* index; on the
(degenerate but accepted) index `{"t1": {"df": 100, "postings": {"0": tf}}}`
with one document of length 1, the idf `ln(2/101) + 1` is negative, so
raising `tf` from 1 to 2 strictly *decreases* the accumulated score of
document 0. -/
theorem C9_counterexample_df_exceeds_n :
    (dictFind (searchScores [("t1", ⟨100, [(0, 2)]⟩)] [1] 1 ["t1"]) 0).getD 0 <
    (dictFind (searchScores [("t1", ⟨100, [(0, 1)]⟩)] [1] 1 ["t1"]) 0).getD 0 := by
  have hv : ∀ x : Nat, searchScores [("t1", (⟨100, [(0, x)]⟩ : IndexEntry))] [1] 1 ["t1"] =
      [(0, (dictFind ([] : List (Nat × ℝ)) 0).getD 0 +
        (((x : ℕ) : ℝ) / max 1 ((([1].getD 0 1 : ℕ)) : ℝ)) * idfOf 1 100)] :=
    fun x => rfl
  have hl : ∀ v : ℝ, (dictFind [(0, v)] 0).getD 0 = v := fun v => rfl
  rw [hv 2, hv 1, hl, hl]
  have hI : idfOf 1 100 < 0 := by
    rw [idfOf]
    have h0 : (0 : ℝ) < (((1 : ℕ) : ℝ) + 1) / (((100 : ℕ) : ℝ) + 1) := by positivity
    have hlt : Real.log ((((1 : ℕ) : ℝ) + 1) / (((100 : ℕ) : ℝ) + 1)) < -1 := by
      rw [Real.log_lt_iff_lt_exp h0, Real.exp_neg]
      have he : Real.exp 1 < 2.7182818286 := Real.exp_one_lt_d9
      have hp : (0 : ℝ) < Real.exp 1 := Real.exp_pos 1
      have h1 : (2.7182818286 : ℝ)⁻¹ < (Real.exp 1)⁻¹ := inv_strictAnti₀ hp he
      have h2 : (((1 : ℕ) : ℝ) + 1) / (((100 : ℕ) : ℝ) + 1) < (2.7182818286 : ℝ)⁻¹ := by
        norm_num
      linarith
    linarith
  have hmax : max (1 : ℝ) ((([1].getD 0 1 : ℕ)) : ℝ) = 1 := by norm_num
  rw [hmax]
  simp only [dictFind, Option.getD_none]
  push_cast
  nlinarith [hI]

/-- C9 (amended): on any index whose hit entry satisfies `df ≤ N` — as every
index built by the indexer does, since there `df` counts postings over the
`N` documents — raising the raw term frequency of document `d` under a term
`t`, all else fixed, never decreases the accumulated score of `d`. -/
theorem C9_tf_monotone_of_df_le (index : List (String × IndexEntry))
    (docLen : List Nat) (nDocs : Nat) (tokens : List String) (t : String)
    (d : Nat) (tf tf' : Nat) (e : IndexEntry)
    (hpost : ∀ p ∈ index, (keysOf p.2.postings).Nodup)
    (hfind : dictFind index t = some e)
    (hdf : e.df ≤ nDocs)
    (htf : tf ≤ tf') :
    (dictFind (searchScores (setTf index t d tf) docLen nDocs tokens) d).getD 0 ≤
    (dictFind (searchScores (setTf index t d tf') docLen nDocs tokens) d).getD 0 := by
  have hset : ∀ x : Nat, setTf index t d x =
      dictSet index t ⟨e.df, dictSet e.postings d x⟩ := by
    intro x
    rw [setTf.eq_def, hfind]
  have hnd : (keysOf e.postings).Nodup :=
    hpost (t, e) (mem_of_dictFind_eq_some index t e hfind)
  have hpost' : ∀ x : Nat, ∀ p ∈ setTf index t d x, (keysOf p.2.postings).Nodup := by
    intro x
    rw [hset x]
    exact forall_mem_dictSet _ _ _ _ hpost (nodup_keysOf_dictSet _ _ _ hnd)
  have hidf : (0 : ℝ) ≤ idfOf nDocs e.df := by
    rw [idfOf]
    have h1 : (1 : ℝ) ≤ ((nDocs : ℝ) + 1) / ((e.df : ℝ) + 1) := by
      rw [le_div_iff₀ (by positivity)]
      have hc : ((e.df : ℝ)) ≤ (nDocs : ℝ) := Nat.cast_le.mpr hdf
      linarith
    have := Real.log_nonneg h1
    linarith
  have hterm : ∀ x : Nat, termContrib (setTf index t d x) docLen nDocs d t =
      ((x : ℝ) / max 1 ((docLen.getD d 1 : Nat) : ℝ)) * idfOf nDocs e.df := by
    intro x
    rw [hset x, termContrib.eq_def, dictFind_dictSet_self]
    simp only []
    rw [dictFind_dictSet_self]
  have hne : ∀ (x : Nat) (u : String), u ≠ t →
      termContrib (setTf index t d x) docLen nDocs d u =
        termContrib index docLen nDocs d u := by
    intro x u hu
    rw [hset x, termContrib.eq_def, termContrib.eq_def,
      dictFind_dictSet_ne index t u _ hu]
  rw [searchScores_eq_sum, searchScores_eq_sum]
  refine List.sum_le_sum ?_
  intro u hu
  rw [termContribSum_eq_termContrib _ _ _ _ _ (hpost' tf),
    termContribSum_eq_termContrib _ _ _ _ _ (hpost' tf')]
  by_cases hut : u = t
  · subst hut
    rw [hterm tf, hterm tf']
    have hdivle : ((tf : ℝ) / max 1 ((docLen.getD d 1 : Nat) : ℝ)) ≤
        ((tf' : ℝ) / max 1 ((docLen.getD d 1 : Nat) : ℝ)) := by
      have hM : (0 : ℝ) < max 1 ((docLen.getD d 1 : Nat) : ℝ) :=
        lt_of_lt_of_le zero_lt_one (le_max_left _ _)
      have hc : ((tf : ℝ)) ≤ (tf' : ℝ) := Nat.cast_le.mpr htf
      exact (div_le_div_iff_of_pos_right hM).mpr hc
    exact mul_le_mul_of_nonneg_right hdivle hidf
  · rw [hne tf u hut, hne tf' u hut]

/-- C9 witness: a concrete well-formed index (`df = 1 ≤ N = 1`) on which the
amended monotonicity applies at `tf = 2 ≤ tf' = 3`. -/
theorem C9_tf_monotone_of_df_le_witness :
    ((∀ p ∈ [("t1", (⟨1, [(0, 2)]⟩ : IndexEntry))], (keysOf p.2.postings).Nodup) ∧
      dictFind [("t1", (⟨1, [(0, 2)]⟩ : IndexEntry))] "t1" = some ⟨1, [(0, 2)]⟩ ∧
      (⟨1, [(0, 2)]⟩ : IndexEntry).df ≤ 1 ∧ 2 ≤ 3) ∧
    (dictFind (searchScores (setTf [("t1", ⟨1, [(0, 2)]⟩)] "t1" 0 2) [10] 1 ["t1"]) 0).getD 0 ≤
    (dictFind (searchScores (setTf [("t1", ⟨1, [(0, 2)]⟩)] "t1" 0 3) [10] 1 ["t1"]) 0).getD 0 :=
  ⟨⟨by decide, by decide, by decide, by decide⟩,
   C9_tf_monotone_of_df_le [("t1", ⟨1, [(0, 2)]⟩)] [10] 1 ["t1"] "t1" 0 2 3
     ⟨1, [(0, 2)]⟩ (by decide) (by decide) (by decide) (by decide)⟩

/-! ## Claim C7 — endpoint total except division by zero -/

/-- C7 counterexample.  The claim says malformed pagination (for example
`size <= 0`) still yields a normal result payload; with `size = 0` the
`total_pages` floor division raises `ZeroDivisionError`, which the handler
catches and converts into an error payload instead. -/
theorem C7_counterexample_size_zero :
    searchEndpoint [] (fun _ => []) (fun _ => none) "" 1 0 "" 0 0 "score" =
      Except.error "integer division or modulo by zero" := by
  have h1 : pyStripEmpty "" = true := rfl
  simp [searchEndpoint, endpointPostProcess, h1, pySlice, pyIdx]

/-- C7 (amended): for every `size ≠ 0` — whatever the query, filters, sort
mode, `page` (including `page ≤ 0`) and negative `size` — the handler body
raises nothing and the endpoint returns a normal result payload; only
`size = 0` produces the caught-`ZeroDivisionError` error payload. -/
theorem C7_endpoint_ok_of_size_nonzero (pubs : List Pub)
    (engine : String → List SearchResult)
    (cacheLookup : String → Option (List SearchResult))
    (query : String) (page size : Int) (author : String)
    (yearFrom yearTo : Int) (sort : String)
    (hsize : size ≠ 0) :
    ∃ pay, searchEndpoint pubs engine cacheLookup query page size author
        yearFrom yearTo sort = Except.ok pay := by
  unfold searchEndpoint endpointPostProcess
  simp only [if_neg hsize]
  exact ⟨_, rfl⟩

/-- C7 witness: at `page = 0`, `size = -1` (both malformed in the spec's
sense) the endpoint still answers with a payload. -/
theorem C7_endpoint_ok_of_size_nonzero_witness :
    ((-1 : Int) ≠ 0) ∧
    ∃ pay, searchEndpoint [] (fun _ => []) (fun _ => none) "q" 0 (-1) "" 0 0
        "score" = Except.ok pay :=
  ⟨by decide,
   C7_endpoint_ok_of_size_nonzero [] (fun _ => []) (fun _ => none) "q" 0 (-1)
     "" 0 0 "score" (by decide)⟩

/-! ## Claim C10 — blank query lists the whole corpus -/

/-- C10: a blank (empty or whitespace-only) query never consults the cache
or the engine — the endpoint answers the same whatever engine and cache are
installed — and instead runs the filter/sort/pagination pipeline over the
entire corpus with every record's score set to `0.0`; meanwhile
`SearchEngine.search` itself returns `[]` on such a query. -/
theorem C10_blank_query_lists_corpus (pubs : List Pub)
    (engine engine2 : String → List SearchResult)
    (cl cl2 : String → Option (List SearchResult))
    (query : String) (page size : Int) (author : String) (yearFrom yearTo : Int)
    (sort : String) (index : List (String × IndexEntry)) (docLen : List Nat)
    (tokenize : String → List String)
    (hq : pyStripEmpty query = true) :
    (searchEndpoint pubs engine cl query page size author yearFrom yearTo sort =
      endpointPostProcess (pubs.map (fun p => ⟨p, 0.0⟩)) page size author
        yearFrom yearTo sort) ∧
    (searchEndpoint pubs engine cl query page size author yearFrom yearTo sort =
      searchEndpoint pubs engine2 cl2 query page size author yearFrom yearTo sort) ∧
    engineSearch pubs index docLen tokenize query = [] := by
  have h1 : ∀ (e : String → List SearchResult)
      (c : String → Option (List SearchResult)),
      searchEndpoint pubs e c query page size author yearFrom yearTo sort =
        endpointPostProcess (pubs.map (fun p => ⟨p, 0.0⟩)) page size author
          yearFrom yearTo sort := by
    intro e c
    rw [searchEndpoint.eq_def, if_pos hq]
  refine ⟨h1 engine cl, (h1 engine cl).trans (h1 engine2 cl2).symm, ?_⟩
  rw [engineSearch, if_pos hq]

/-- C10 witness: the whitespace query `" "` on a one-record corpus. -/
theorem C10_blank_query_lists_corpus_witness :
    (pyStripEmpty " " = true) ∧
    ((searchEndpoint [⟨"T", "L", [], "2020", "A"⟩] (fun _ => []) (fun _ => none)
        " " 1 10 "" 0 0 "score" =
      endpointPostProcess ([⟨"T", "L", [], "2020", "A"⟩].map (fun p => ⟨p, 0.0⟩))
        1 10 "" 0 0 "score") ∧
    (searchEndpoint [⟨"T", "L", [], "2020", "A"⟩] (fun _ => []) (fun _ => none)
        " " 1 10 "" 0 0 "score" =
      searchEndpoint [⟨"T", "L", [], "2020", "A"⟩]
        (fun _ => [⟨⟨"T", "L", [], "2020", "A"⟩, 1⟩]) (fun _ => some [])
        " " 1 10 "" 0 0 "score") ∧
    engineSearch [⟨"T", "L", [], "2020", "A"⟩] [] [] (fun _ => []) " " = []) :=
  ⟨by decide,
   C10_blank_query_lists_corpus [⟨"T", "L", [], "2020", "A"⟩] (fun _ => [])
     (fun _ => [⟨⟨"T", "L", [], "2020", "A"⟩, 1⟩]) (fun _ => none)
     (fun _ => some []) " " 1 10 "" 0 0 "score" [] [] (fun _ => []) (by decide)⟩

/-- C2 witness: on one stub and one detail record sharing link `"u"`, the
link appears once, and the stored value is the detail record. -/
theorem C2_merge_by_link_witness :
    ((mergeByLink [⟨"T", "u"⟩] [⟨"T2", "u", [], none, ""⟩]).map MergedVal.link).count "u" = 1 ∧
    (∃ rec2 ∈ [(⟨"T2", "u", [], none, ""⟩ : DetailRec)], rec2.link = "u" ∧
      dictFind (mergeMap [⟨"T", "u"⟩] [⟨"T2", "u", [], none, ""⟩]) "u" =
        some (Sum.inr rec2)) :=
  ⟨(C2_merge_by_link [⟨"T", "u"⟩] [⟨"T2", "u", [], none, ""⟩]).2.1
      ⟨"T", "u"⟩ (by decide),
   (C2_merge_by_link [⟨"T", "u"⟩] [⟨"T2", "u", [], none, ""⟩]).2.2
      ⟨"T2", "u", [], none, ""⟩ (by decide)⟩

/-- C5 witness: on the two-row counterexample input, the kept row for link
`"l"` is the last row of the input with that link. -/
theorem C5_dedup_keeps_last_seen_witness :
    ((⟨"B", "l"⟩ : ListingRow) ∈ gatherDedup [⟨"A", "l"⟩, ⟨"B", "l"⟩]) ∧
    [(⟨"A", "l"⟩ : ListingRow), ⟨"B", "l"⟩].reverse.find?
      (fun r2 => decide (r2.link = (⟨"B", "l"⟩ : ListingRow).link)) =
        some ⟨"B", "l"⟩ :=
  ⟨by decide,
   (C5_dedup_keeps_last_seen [⟨"A", "l"⟩, ⟨"B", "l"⟩]).2.2 ⟨"B", "l"⟩ (by decide)⟩

end IR
